import Mathlib

/-!
Verification of the term-revealing repository's natural-language specification.

Each source function is embedded as an executable Lean definition and the
spec's claims are settled as theorems about those definitions.  Tensors are
represented as functions from their (nat) indices to their entries; machine
floats are modelled as exact rationals, and the integer index arithmetic of
the permute/view pipeline is carried out explicitly on naturals.
-/

namespace TermRevealing

/-- Activation tensors of shape (B, C, W, H) in `cgm.py`, represented as a
function from the four indices (batch, channel, width, height) to the entry.
Entries are modelled as integers (exactness is all that matters for the
masking claims). -/
abbrev Tensor4 : Type := ℕ → ℕ → ℕ → ℕ → ℤ

/-- Row `i`, column `j` of `x.permute(2, 3, 0, 1).contiguous().view(-1, group_size)`
from the CPU path of `cgm.forward`.  The permuted tensor has shape (W, H, B, C)
in row-major order, so flat position `p = i * g + j` decodes to
`w = p / C / B / H`, `h = p / C / B % H`, `b = p / C % B`, `c = p % C`,
and the permuted entry at (w, h, b, c) is `x b c w h`. -/
def cgmRow (g C B H : ℕ) (x : Tensor4) (i j : ℕ) : ℤ :=
  x ((i * g + j) / C % B) ((i * g + j) % C)
    ((i * g + j) / C / B / H) ((i * g + j) / C / B % H)

/-- Maximum of a row of width `g`, as computed by
`x.max(dim=1, keepdim=True)[0]`.  For `0 < g` this is the maximum of
`f 0, ..., f (g-1)` (the base element `f 0` is repeated, which is harmless). -/
def rowMax (g : ℕ) (f : ℕ → ℤ) : ℤ :=
  ((List.range g).map f).foldr max (f 0)

/-- One row after the in-place update `x[x != x.max(dim=1, keepdim=True)[0]] = 0`:
entries equal to the row maximum survive, all others become zero. -/
def cgmMasked (g C B H : ℕ) (x : Tensor4) (i j : ℕ) : ℤ :=
  if cgmRow g C B H x i j = rowMax g (cgmRow g C B H x i) then
    cgmRow g C B H x i j
  else 0

/-- The CPU fallback path of `cgm.forward` for an input of shape (B, C, W, H):
permute to (W, H, B, C), view as rows of width `group_size`, zero every entry
that differs from its row maximum, then view the result back as (W, H, B, C)
and permute back to (B, C, W, H).  The output entry at (b, c, w, h) therefore
comes from flat position `q = ((w * H + h) * B + b) * C + c` of the masked
row tensor, i.e. row `q / g`, column `q % g`.  `W` only fixes the logical
shape and does not enter the index arithmetic. -/
def cgm_forward (g B C W H : ℕ) (x : Tensor4) : Tensor4 :=
  fun b c w h =>
    cgmMasked g C B H x ((((w * H + h) * B + b) * C + c) / g)
      ((((w * H + h) * B + b) * C + c) % g)

/-- Specification-side description of the maximum of the contiguous
`group_size`-channel group containing channel `c` at position (b, w, h):
the group consists of channels `c / g * g + j` for `j < g`. -/
def groupMax (g : ℕ) (x : Tensor4) (b c w h : ℕ) : ℤ :=
  rowMax g (fun j => x b (c / g * g + j) w h)

/-- The CPU fallback path of `cgm.backward`: the incoming gradient is zeroed
at every position where the saved forward input is negative
(`grad_output[x<0] = 0`) and returned together with `None` for the
`group_size` parameter, modelled as the second component `none`. -/
def cgm_backward (x grad_output : Tensor4) : Tensor4 × Option Tensor4 :=
  (fun b c w h => if x b c w h < 0 then 0 else grad_output b c w h, none)

/-- Example input used by the spec for the gating operator: a single
channel group holding the values 1, 3, 2, 3 (B = W = H = 1, C = 4). -/
def exGroup : Tensor4 := fun _ c _ _ =>
  if c = 0 then 1 else if c = 1 then 3 else if c = 2 then 2 else 3

/-- A tensor with two channels holding -1 and -2, used to exhibit the failure
of idempotence of the forward masking on negative inputs. -/
def exNegPair : Tensor4 := fun _ c _ _ => if c = 0 then -1 else -2

/-- The all-ones activation tensor, a nonnegative input. -/
def onesTensor : Tensor4 := fun _ _ _ _ => 1

/-- One sample's activation at an instrumented layer in
`evaluate_activation.py`: a (C, W, H) tensor of rational entries. -/
abbrev Activation (C W H : ℕ) : Type := Fin C → Fin W → Fin H → ℚ

/-- Binarization step `data[data != 0] = 1` of `evaluate`: nonzero entries
become 1, zero entries are left at their value 0. -/
def binarize (v : ℚ) : ℚ := if v ≠ 0 then 1 else v

/-- Entry (i, j) of `torch.mm(data, torch.transpose(data, 0, 1))` for one
batch, where `data` is the binarized activation reshaped to (C, B*W*H) via
`permute(1, 0, 2, 3).contiguous().view(C, -1)`: the sum over all samples of
the batch and all spatial positions of the product of the two binarized
channel entries. -/
def batchConflict {C W H : ℕ} (batch : List (Activation C W H)) (i j : Fin C) : ℚ :=
  (batch.map (fun s => ∑ w : Fin W, ∑ h : Fin H,
    binarize (s i w h) * binarize (s j w h))).sum

/-- The total sample count `num_samples` accumulated by `evaluate` over all
batches of the loader (`num_samples += len(target)`). -/
def numSamples {C W H : ℕ} (batches : List (List (Activation C W H))) : ℕ :=
  (batches.map List.length).sum

/-- The conflict matrix accumulated across the whole pass, before
normalization: the sum of the per-batch outer products. -/
def accumConflict {C W H : ℕ} (batches : List (List (Activation C W H)))
    (i j : Fin C) : ℚ :=
  (batches.map (fun b => batchConflict b i j)).sum

/-- The final Conflict Matrix of `evaluate` for one instrumented 4-D layer:
after accumulation the diagonal is forced to zero
(`conflict_mat[range, range] = 0`) and the matrix is divided by
`num_samples * W * H`.  Indexing by `Fin C` in both coordinates makes the
matrix square by construction. -/
def conflictMatrix {C W H : ℕ} (batches : List (List (Activation C W H)))
    (i j : Fin C) : ℚ :=
  (if i = j then 0 else accumConflict batches i j)
    / ((numSamples batches * W * H : ℕ) : ℚ)

/-- Specification-side count for C4: the number of (sample, spatial-position)
instances across the whole pass at which channels `i` and `j` are both
nonzero. -/
def coActiveCount {C W H : ℕ} (batches : List (List (Activation C W H)))
    (i j : Fin C) : ℕ :=
  (batches.map (fun b => (b.map (fun s => ∑ w : Fin W, ∑ h : Fin H,
    if s i w h ≠ 0 ∧ s j w h ≠ 0 then 1 else 0)).sum)).sum

/-- Function `get_conflict_score` of `evaluate_activation.py`: the sum of
`conflict_mat[i][j]` over `itertools.combinations(columns, 2)`, i.e. over all
unordered pairs of the candidate bin in list order. -/
def get_conflict_score (mat : ℕ → ℕ → ℚ) : List ℕ → ℚ
  | [] => 0
  | i :: rest => (rest.map (fun j => mat i j)).sum + get_conflict_score mat rest

/-- The inner `for bin_elems in bins` loop of `first_fit` for one column:
scan the bins in creation order, skip a bin whose size equals `max_columns`,
and place the column at the end of the first bin whose tentative conflict
score is below `max_conflict_score`; `none` when every bin rejects the
column. -/
def tryPlace (mat : ℕ → ℕ → ℚ) (maxScore : ℚ) (maxCols : ℕ) (column : ℕ) :
    List (List ℕ) → Option (List (List ℕ))
  | [] => none
  | b :: bs =>
    if b.length = maxCols then
      (tryPlace mat maxScore maxCols column bs).map (fun r => b :: r)
    else if get_conflict_score mat (b ++ [column]) < maxScore then
      some ((b ++ [column]) :: bs)
    else
      (tryPlace mat maxScore maxCols column bs).map (fun r => b :: r)

/-- One iteration of the outer loop of `first_fit`: try to place the column
into an existing bin, and otherwise open a new singleton bin (the `for ...
else` branch `bins.append([column])`). -/
def first_fit_step (mat : ℕ → ℕ → ℚ) (maxScore : ℚ) (maxCols : ℕ)
    (bins : List (List ℕ)) (column : ℕ) : List (List ℕ) :=
  match tryPlace mat maxScore maxCols column bins with
  | some bins2 => bins2
  | none => bins ++ [[column]]

/-- Function `first_fit` of `evaluate_activation.py`: process the columns
`0 .. numColumns - 1` (i.e. `range(len(conflict_mat))`) in order, starting
from an empty bin list.  The defaults in the source are
`max_conflict_score = 0.01` and `max_columns = 8`. -/
def first_fit (mat : ℕ → ℕ → ℚ) (numColumns : ℕ) (maxScore : ℚ)
    (maxCols : ℕ) : List (List ℕ) :=
  (List.range numColumns).foldl (first_fit_step mat maxScore maxCols) []

/-- An all-zero conflict matrix, used as a concrete input for first-fit
packing witnesses. -/
def zeroMat : ℕ → ℕ → ℚ := fun _ _ => 0

/-- The C5 bin invariant: a bin respects the capacity bound, and every state
it passed through while channels were being accepted into it (every prefix of
length at least 2, i.e. every acceptance moment) had a conflict score below
the threshold. -/
def BinOk (mat : ℕ → ℕ → ℚ) (maxScore : ℚ) (maxCols : ℕ) (b : List ℕ) : Prop :=
  b.length ≤ maxCols ∧
    ∀ n, 2 ≤ n → n ≤ b.length → get_conflict_score mat (b.take n) < maxScore

/-- The C9 invariant after processing columns `0 .. n - 1`: every bin is
nonempty, strictly ascending, and holds only columns below `n`, and every
column below `n` occurs exactly once across all bins (columns `≥ n` not at
all). -/
def PartitionInv (n : ℕ) (bins : List (List ℕ)) : Prop :=
  (∀ b ∈ bins, b ≠ [] ∧ List.Sorted (· < ·) b ∧ ∀ x ∈ b, x < n) ∧
  (∀ i, (bins.map (fun b => b.count i)).sum = if i < n then 1 else 0)

/-- Concatenation of a list of lists, modelling the repeated
`all_res.extend(...)` of `get_term_count`. -/
def listConcat (ls : List (List ℕ)) : List ℕ :=
  ls.foldr (fun a r => a ++ r) []

/-- The flat integer sequence `all_res` built by `get_term_count` in
`evaluate_term_pairs.py`: for each channel group `i < C / group_size`, the
matrix product of the group's activation term counts (shape (B*W*H, g)) with
the transposed group's weight term counts (shape (g, F)), flattened row-major
and concatenated over the groups.  The external Booth term-counting routine
is a boundary component, so the per-entry term counts `x_terms` (indexed by
flattened spatial position and channel) and `w_terms` (indexed by output
filter and channel) are arbitrary natural-valued functions. -/
def all_res (B C W H F g : ℕ) (x_terms w_terms : ℕ → ℕ → ℕ) : List ℕ :=
  listConcat ((List.range (C / g)).map (fun i =>
    listConcat ((List.range (B * W * H)).map (fun r =>
      (List.range F).map (fun f =>
        ((List.range g).map (fun j =>
          x_terms r (i * g + j) * w_terms f (i * g + j))).sum)))))

/-- Model of `np.bincount` with `minlength=None`: for a nonempty list the
result has one slot per value from 0 up to the maximum, each holding the
number of occurrences of that value; for an empty input the result is empty. -/
def bincount (l : List ℕ) : List ℕ :=
  match l with
  | [] => []
  | _ :: _ => (List.range (l.foldr max 0 + 1)).map (fun v => l.count v)

/-- Function `get_term_count` of `evaluate_term_pairs.py` on the
`minlength=None` path: the histogram of the term-pair sums. -/
def get_term_count (B C W H F g : ℕ) (x_terms w_terms : ℕ → ℕ → ℕ) : List ℕ :=
  bincount (all_res B C W H F g x_terms w_terms)

/-- The pattern string 'module.' whose occurrences are stripped from
checkpoint keys, as a list of characters. -/
def modulePat : List Char := 'm' :: 'o' :: 'd' :: 'u' :: 'l' :: 'e' :: '.' :: []

/-- Fuelled worker for Python's `str.replace(pat, '')`: scan left to right;
whenever the remaining string starts with the (nonempty) pattern, drop the
occurrence, otherwise emit the head character.  The fuel only bounds the
recursion and is always at least the string length at the call site, which
is enough since every step consumes at least one character. -/
def replaceAux (pat : List Char) : ℕ → List Char → List Char
  | _, [] => []
  | 0, s => s
  | fuel + 1, c :: s =>
    if 0 < pat.length ∧ (c :: s).take pat.length = pat then
      replaceAux pat fuel (s.drop (pat.length - 1))
    else
      c :: replaceAux pat fuel s

/-- Python's `key.replace(pat, '')` for a nonempty pattern: remove every
(non-overlapping, leftmost-first) occurrence of `pat`. -/
def pyReplace (pat s : List Char) : List Char :=
  replaceAux pat s.length s

/-- Python's substring test `pat in s`. -/
def hasSubstr (pat : List Char) : List Char → Bool
  | [] => decide (pat = [])
  | c :: s => decide ((c :: s).take pat.length = pat) || hasSubstr pat s

/-- The checkpoint-key normalization of the `__main__` block of
`evaluate_activation.py`: `new_key = key.replace('module.', '') if 'module.'
in key else key`. -/
def normalizeKey (s : List Char) : List Char :=
  if hasSubstr modulePat s then pyReplace modulePat s else s

/-- Specification-side assembly of a key from segments separated by
occurrences of a pattern:
`joinWith pat [s0, s1, ..., sk] = s0 ++ pat ++ s1 ++ ... ++ pat ++ sk`.
A key containing the pattern anywhere (at the start, mid-key, or several
times) is `joinWith pat segs` for a segment list with at least two
segments. -/
def joinWith (pat : List Char) : List (List Char) → List Char
  | [] => []
  | [s] => s
  | s :: rest => s ++ pat ++ joinWith pat rest

/-- Concatenation of the segments: the key with every separator occurrence
of the pattern deleted, i.e. the stripped key. -/
def concatSegs (segs : List (List Char)) : List Char :=
  segs.foldr (fun a r => a ++ r) []

/-- Class `AverageMeter` of `util.py`.  All four fields are modelled as exact
rationals (`count` is an integer in the source, embedded in ℚ so that
`avg = sum / count` is Python's true division). -/
structure AverageMeter where
  val : ℚ
  avg : ℚ
  sum : ℚ
  count : ℚ

/-- Method `AverageMeter.reset`: zero all four fields. -/
def AverageMeter.reset (_m : AverageMeter) : AverageMeter :=
  { val := 0, avg := 0, sum := 0, count := 0 }

/-- A freshly constructed meter; `__init__` simply calls `reset`. -/
def AverageMeter.init : AverageMeter :=
  AverageMeter.reset { val := 0, avg := 0, sum := 0, count := 0 }

/-- Method `AverageMeter.update(val, n)` (the source default for `n` is 1):
record the last value, add `val * n` to the sum, add `n` to the count, and
recompute `avg = sum / count`. -/
def AverageMeter.update (m : AverageMeter) (v n : ℚ) : AverageMeter :=
  { val := v, sum := m.sum + v * n, count := m.count + n,
    avg := (m.sum + v * n) / (m.count + n) }

/-- Class `AverageTracker` of `evaluate_activation.py`, after its lazy first
initialization (the first forward call zero-initializes `data` and `zeros`
with shape `x.size()[1:]` and starts `count` at 0): `count` counts samples,
`data` and `zeros` hold per-position accumulators of shape (C, W, H), and `x`
stores the most recent input batch of shape (B, C, W, H). -/
structure AverageTracker (B C W H : ℕ) where
  count : ℕ
  data : Fin C → Fin W → Fin H → ℚ
  zeros : Fin C → Fin W → Fin H → ℚ
  x : Fin B → Fin C → Fin W → Fin H → ℚ

/-- Method `AverageTracker.forward`: store the raw input in `x`, add
`x.sum(0)` to `data`, add the batch size `x.size(0)` to `count`, add
`(x == 0).float().sum(0)` to `zeros`, and return the input itself.  The
returned pair is (updated tracker state, returned tensor). -/
def AverageTracker.forward {B C W H : ℕ} (t : AverageTracker B C W H)
    (inp : Fin B → Fin C → Fin W → Fin H → ℚ) :
    AverageTracker B C W H × (Fin B → Fin C → Fin W → Fin H → ℚ) :=
  ({ count := t.count + B,
     data := fun c w h => t.data c w h + ∑ b : Fin B, inp b c w h,
     zeros := fun c w h => t.zeros c w h
       + ∑ b : Fin B, (if inp b c w h = 0 then (1 : ℚ) else 0),
     x := inp }, inp)

/-- Specification-side count for C10: the number of samples of the batch
whose entry at a fixed position (c, w, h) is zero. -/
def zeroCount {B C W H : ℕ} (inp : Fin B → Fin C → Fin W → Fin H → ℚ)
    (c : Fin C) (w : Fin W) (h : Fin H) : ℕ :=
  ∑ b : Fin B, (if inp b c w h = 0 then 1 else 0)

section FoldMaxLemmas

theorem le_foldr_max_init (l : List ℤ) (a : ℤ) : a ≤ l.foldr max a := by
  induction l with
  | nil => exact le_refl a
  | cons x xs ih => exact le_trans ih (le_max_right x (xs.foldr max a))

theorem le_foldr_max_mem {l : List ℤ} {x : ℤ} (a : ℤ) (hx : x ∈ l) :
    x ≤ l.foldr max a := by
  induction l with
  | nil => cases hx
  | cons y ys ih =>
    rcases List.mem_cons.mp hx with h | h
    · subst h; exact le_max_left x (ys.foldr max a)
    · exact le_trans (ih h) (le_max_right y (ys.foldr max a))

theorem foldr_max_le {l : List ℤ} {a c : ℤ} (ha : a ≤ c)
    (hl : ∀ x ∈ l, x ≤ c) : l.foldr max a ≤ c := by
  induction l with
  | nil => exact ha
  | cons y ys ih =>
    refine max_le (hl y (List.mem_cons_self y ys)) ?_
    exact ih (fun x hx => hl x (List.mem_cons_of_mem y hx))

theorem foldr_max_eq_or (l : List ℤ) (a : ℤ) :
    l.foldr max a = a ∨ l.foldr max a ∈ l := by
  induction l with
  | nil => exact Or.inl rfl
  | cons y ys ih =>
    rcases max_choice y (ys.foldr max a) with h | h
    · exact Or.inr (by rw [List.foldr_cons, h]; exact List.mem_cons_self y ys)
    · rcases ih with h2 | h2
      · exact Or.inl (by rw [List.foldr_cons, h, h2])
      · exact Or.inr (by rw [List.foldr_cons, h]; exact List.mem_cons_of_mem y h2)

theorem rowMax_ge {g : ℕ} (f : ℕ → ℤ) {j : ℕ} (hj : j < g) :
    f j ≤ rowMax g f :=
  le_foldr_max_mem (f 0) (List.mem_map_of_mem f (List.mem_range.mpr hj))

theorem rowMax_ge_base (g : ℕ) (f : ℕ → ℤ) : f 0 ≤ rowMax g f :=
  le_foldr_max_init _ _

theorem rowMax_le {g : ℕ} {f : ℕ → ℤ} {c : ℤ} (h0 : f 0 ≤ c)
    (h : ∀ j, j < g → f j ≤ c) : rowMax g f ≤ c := by
  refine foldr_max_le h0 ?_
  intro x hx
  rcases List.mem_map.mp hx with ⟨j, hj, rfl⟩
  exact h j (List.mem_range.mp hj)

theorem rowMax_attained {g : ℕ} (hg : 0 < g) (f : ℕ → ℤ) :
    ∃ j, j < g ∧ f j = rowMax g f := by
  rcases foldr_max_eq_or ((List.range g).map f) (f 0) with h | h
  · exact ⟨0, hg, h.symm⟩
  · rcases List.mem_map.mp h with ⟨j, hj, hfj⟩
    exact ⟨j, List.mem_range.mp hj, hfj⟩

theorem rowMax_congr {g : ℕ} (hg : 0 < g) {f f2 : ℕ → ℤ}
    (h : ∀ j, j < g → f j = f2 j) : rowMax g f = rowMax g f2 := by
  unfold rowMax
  rw [h 0 hg, List.map_congr_left (fun j hj => h j (List.mem_range.mp hj))]

end FoldMaxLemmas

section IndexArithmetic

/-- Dividing the flat position `A * C + c` (with `c` the channel) by a group
size that divides `C` splits the row index and column of the
`view(-1, group_size)` reshape. -/
theorem encode_div_g {g C : ℕ} (hg : 0 < g) (hgC : g ∣ C) (A c : ℕ) :
    (A * C + c) / g = A * (C / g) + c / g ∧ (A * C + c) % g = c % g := by
  obtain ⟨m, rfl⟩ := hgC
  have hdiv : g * m / g = m := Nat.mul_div_cancel_left m hg
  have hform : A * (g * m) + c = c + A * m * g := by ring
  constructor
  · rw [hform, Nat.add_mul_div_right c (A * m) hg, hdiv]
    ring
  · rw [hform]
    exact Nat.add_mul_mod_self_right c (A * m) g

/-- Decoding a flat position of the (W, H, B, C) view into its four
coordinates and re-encoding it is the identity, with no side conditions. -/
theorem reencode_flat (C B H p : ℕ) :
    ((p / C / B / H * H + p / C / B % H) * B + p / C % B) * C + p % C = p := by
  rw [Nat.div_add_mod' (p / C / B) H, Nat.div_add_mod' (p / C) B,
    Nat.div_add_mod' p C]

/-- For in-range coordinates, row `(w * H + h) * B + b) * (C / g) + c / g` of
the `view(-1, group_size)` reshape is exactly the contiguous channel group
containing channel `c` at position (b, w, h). -/
theorem cgmRow_group {g B C H : ℕ} (x : Tensor4) (b c w h : ℕ)
    (hg : 0 < g) (hgC : g ∣ C) (hb : b < B) (hc : c < C) (hh : h < H) :
    ∀ j, j < g →
      cgmRow g C B H x (((w * H + h) * B + b) * (C / g) + c / g) j
        = x b (c / g * g + j) w h := by
  intro j hj
  have hB : 0 < B := Nat.pos_of_ne_zero (by omega)
  have hC : 0 < C := Nat.pos_of_ne_zero (by omega)
  have hH : 0 < H := Nat.pos_of_ne_zero (by omega)
  have hCg : C / g * g = C := Nat.div_mul_cancel hgC
  have hd : c / g * g + j < C := by
    have h1 : c / g < C / g := Nat.div_lt_div_of_lt_of_dvd hgC hc
    calc c / g * g + j < c / g * g + g := by omega
      _ = (c / g + 1) * g := by ring
      _ ≤ C / g * g := Nat.mul_le_mul_right g h1
      _ = C := hCg
  have hp : (((w * H + h) * B + b) * (C / g) + c / g) * g + j
      = (c / g * g + j) + ((w * H + h) * B + b) * C := by
    have h3 : ((w * H + h) * B + b) * (C / g) * g = ((w * H + h) * B + b) * C := by
      rw [mul_assoc, hCg]
    rw [add_mul, h3]
    ring
  unfold cgmRow
  rw [hp]
  have hmod : ((c / g * g + j) + ((w * H + h) * B + b) * C) % C = c / g * g + j := by
    rw [Nat.add_mul_mod_self_right]
    exact Nat.mod_eq_of_lt hd
  have hdiv : ((c / g * g + j) + ((w * H + h) * B + b) * C) / C
      = (w * H + h) * B + b := by
    rw [Nat.add_mul_div_right _ _ hC, Nat.div_eq_of_lt hd, Nat.zero_add]
  rw [hmod, hdiv]
  have hform : (w * H + h) * B + b = b + (w * H + h) * B := by ring
  have hAB : ((w * H + h) * B + b) % B = b := by
    rw [hform, Nat.add_mul_mod_self_right]
    exact Nat.mod_eq_of_lt hb
  have hAdiv : ((w * H + h) * B + b) / B = w * H + h := by
    rw [hform, Nat.add_mul_div_right _ _ hB, Nat.div_eq_of_lt hb, Nat.zero_add]
  rw [hAB, hAdiv]
  have hform2 : w * H + h = h + w * H := by ring
  have hWH1 : (w * H + h) / H = w := by
    rw [hform2, Nat.add_mul_div_right _ _ hH, Nat.div_eq_of_lt hh, Nat.zero_add]
  have hWH2 : (w * H + h) % H = h := by
    rw [hform2, Nat.add_mul_mod_self_right]
    exact Nat.mod_eq_of_lt hh
  rw [hWH1, hWH2]

end IndexArithmetic

section GatingForward

/-- C1.  Gating Operator forward, portable fallback path: at every in-range
position (b, c, w, h) of a (B, C, W, H) input whose channel count is evenly
divisible by the group size, the output equals the input value when that value
equals the maximum of its contiguous `g`-channel group (so all ties survive)
and is exactly zero otherwise; consequently every output position either
equals its group maximum or is zero.  The output is indexed in (B, C, W, H)
order, matching the returned shape. -/
theorem cgm_forward_keeps_group_max (g B C W H : ℕ) (x : Tensor4) (b c w h : ℕ)
    (hg : 0 < g) (hgC : g ∣ C) (hb : b < B) (hc : c < C) (hw : w < W) (hh : h < H) :
    cgm_forward g B C W H x b c w h
        = (if x b c w h = groupMax g x b c w h then x b c w h else 0) ∧
      (cgm_forward g B C W H x b c w h = groupMax g x b c w h ∨
        cgm_forward g B C W H x b c w h = 0) := by
  have hq := encode_div_g hg hgC ((w * H + h) * B + b) c
  have hrow := cgmRow_group x b c w h hg hgC hb hc hh
  have hmaxeq : rowMax g (cgmRow g C B H x (((w * H + h) * B + b) * (C / g) + c / g))
      = groupMax g x b c w h := rowMax_congr hg hrow
  have hentry : cgmRow g C B H x (((w * H + h) * B + b) * (C / g) + c / g) (c % g)
      = x b c w h := by
    rw [hrow (c % g) (Nat.mod_lt c hg), Nat.div_add_mod' c g]
  have hmain : cgm_forward g B C W H x b c w h
      = (if x b c w h = groupMax g x b c w h then x b c w h else 0) := by
    unfold cgm_forward cgmMasked
    rw [hq.1, hq.2, hentry, hmaxeq]
  refine ⟨hmain, ?_⟩
  rw [hmain]
  by_cases hxy : x b c w h = groupMax g x b c w h
  · rw [if_pos hxy]
    exact Or.inl hxy
  · rw [if_neg hxy]
    exact Or.inr rfl

/-- Witness for C1, on the spec's own example group [1, 3, 2, 3] with group
size 4: channel 1 holds a 3, which ties the group maximum and survives. -/
theorem cgm_forward_keeps_group_max_witness :
    cgm_forward 4 1 4 1 1 exGroup 0 1 0 0
        = (if exGroup 0 1 0 0 = groupMax 4 exGroup 0 1 0 0 then exGroup 0 1 0 0 else 0) ∧
      (cgm_forward 4 1 4 1 1 exGroup 0 1 0 0 = groupMax 4 exGroup 0 1 0 0 ∨
        cgm_forward 4 1 4 1 1 exGroup 0 1 0 0 = 0) :=
  cgm_forward_keeps_group_max 4 1 4 1 1 exGroup 0 1 0 0 (by decide) (by decide)
    (by decide) (by decide) (by decide) (by decide)

/-- Masking a row whose entries are all nonnegative is an idempotent
operation: the masked row's new maximum is the old one, so re-masking keeps
every entry. -/
theorem mask_idem_of_nonneg {g : ℕ} (hg : 0 < g) (f : ℕ → ℤ)
    (hf : ∀ j, 0 ≤ f j) (j : ℕ) :
    (if (if f j = rowMax g f then f j else 0)
        = rowMax g (fun j2 => if f j2 = rowMax g f then f j2 else 0)
      then (if f j = rowMax g f then f j else 0) else 0)
    = (if f j = rowMax g f then f j else 0) := by
  set M := rowMax g f with hM
  set m := fun j2 => if f j2 = M then f j2 else 0 with hm
  have hM0 : 0 ≤ M := le_trans (hf 0) (rowMax_ge_base g f)
  have hmle : ∀ j2, m j2 ≤ M := by
    intro j2
    by_cases h : f j2 = M
    · simp [hm, h]
    · simp [hm, h, hM0]
  have hM2 : rowMax g m = M := by
    apply le_antisymm
    · exact rowMax_le (hmle 0) (fun j2 _ => hmle j2)
    · obtain ⟨k, hk, hfk⟩ := rowMax_attained hg f
      have : m k = M := by simp [hm, hfk]
      calc M = m k := this.symm
        _ ≤ rowMax g m := rowMax_ge m hk
  rw [hM2]
  by_cases h : f j = M
  · simp [hm, h]
  · simp [hm, h]

/-- Applying the forward masking to an output of the forward masking
re-masks the already-masked rows: row `i` of the second pass agrees with the
masked row `i` of the first pass at all columns below the group size. -/
theorem cgmRow_of_forward (g B C W H : ℕ) (x : Tensor4) (i j : ℕ)
    (hg : 0 < g) (hj : j < g) :
    cgmRow g C B H (cgm_forward g B C W H x) i j = cgmMasked g C B H x i j := by
  unfold cgmRow cgm_forward
  rw [reencode_flat C B H (i * g + j)]
  have h1 : (i * g + j) / g = i := by
    rw [show i * g + j = j + i * g by ring, Nat.add_mul_div_right j i hg,
      Nat.div_eq_of_lt hj, Nat.zero_add]
  have h2 : (i * g + j) % g = j := by
    rw [show i * g + j = j + i * g by ring, Nat.add_mul_mod_self_right]
    exact Nat.mod_eq_of_lt hj
  rw [h1, h2]

/-- C2 counterexample: the forward masking transform is not idempotent on the
two-channel input (-1, -2) with group size 2 (channel count 2 is divisible by
the group size).  The first application yields (-1, 0); the second sees 0 as
the new group maximum and zeroes the surviving -1. -/
theorem cgm_forward_not_idempotent :
    ¬ (cgm_forward 2 1 2 1 1 (cgm_forward 2 1 2 1 1 exNegPair) 0 0 0 0
        = cgm_forward 2 1 2 1 1 exNegPair 0 0 0 0) := by
  decide

/-- C2 amended.  On inputs with no negative entries (e.g. post-ReLU
activations), the forward masking transform is idempotent: applying it twice
agrees with applying it once at every position, for any positive group size
dividing the channel count. -/
theorem cgm_forward_idempotent_of_nonneg (g B C W H : ℕ) (x : Tensor4)
    (hg : 0 < g) (hgC : g ∣ C) (hx : ∀ b c w h, 0 ≤ x b c w h) :
    ∀ b c w h, cgm_forward g B C W H (cgm_forward g B C W H x) b c w h
      = cgm_forward g B C W H x b c w h := by
  intro b c w h
  unfold cgm_forward
  set q := ((w * H + h) * B + b) * C + c with hqdef
  set i := q / g with hi
  have hjg : q % g < g := Nat.mod_lt q hg
  have hrowy : ∀ j, j < g →
      cgmRow g C B H (cgm_forward g B C W H x) i j = cgmMasked g C B H x i j :=
    fun j hj => cgmRow_of_forward g B C W H x i j hg hj
  show cgmMasked g C B H (cgm_forward g B C W H x) i (q % g) = cgmMasked g C B H x i (q % g)
  unfold cgmMasked
  rw [hrowy (q % g) hjg, rowMax_congr hg hrowy]
  have hmasked : ∀ j, cgmMasked g C B H x i j
      = (if cgmRow g C B H x i j = rowMax g (cgmRow g C B H x i)
          then cgmRow g C B H x i j else 0) := fun j => rfl
  simp only [hmasked]
  exact mask_idem_of_nonneg hg (cgmRow g C B H x i) (fun j => hx _ _ _ _) (q % g)

/-- Witness for the amended C2 on the all-ones two-channel input. -/
theorem cgm_forward_idempotent_of_nonneg_witness :
    cgm_forward 2 1 2 1 1 (cgm_forward 2 1 2 1 1 onesTensor) 0 0 0 0
      = cgm_forward 2 1 2 1 1 onesTensor 0 0 0 0 :=
  cgm_forward_idempotent_of_nonneg 2 1 2 1 1 onesTensor (by decide)
    (by decide) (fun _ _ _ _ => zero_le_one) 0 0 0 0

end GatingForward

section GatingBackward

/-- C3.  Gating Operator backward, portable fallback path: the returned
gradient equals the incoming gradient with exactly the positions where the
saved forward input is negative set to zero, and the `group_size` parameter
receives no gradient (`None`).  The final conjunct exhibits that the rule is
sign-based rather than group-max-membership-based: on the spec's example
group [1, 3, 2, 3], position 0 is not a group maximum, yet its (nonnegative)
gradient passes through unchanged. -/
theorem cgm_backward_sign_mask (x grad_output : Tensor4) :
    (∀ b c w h,
      (x b c w h < 0 → (cgm_backward x grad_output).1 b c w h = 0) ∧
      (0 ≤ x b c w h →
        (cgm_backward x grad_output).1 b c w h = grad_output b c w h)) ∧
    (cgm_backward x grad_output).2 = none ∧
    ((cgm_backward exGroup onesTensor).1 0 0 0 0 = onesTensor 0 0 0 0 ∧
      exGroup 0 0 0 0 ≠ groupMax 4 exGroup 0 0 0 0) := by
  refine ⟨fun b c w h => ⟨fun hneg => ?_, fun hpos => ?_⟩, rfl, ?_, ?_⟩
  · simp [cgm_backward, hneg]
  · simp [cgm_backward, not_lt.mpr hpos]
  · decide
  · decide

/-- Witness for C3: a negative saved input zeroes the incoming gradient. -/
theorem cgm_backward_sign_mask_witness :
    (cgm_backward exNegPair onesTensor).1 0 0 0 0 = 0 :=
  (((cgm_backward_sign_mask exNegPair onesTensor).1 0 0 0 0).1 (by decide))

end GatingBackward

section Meters

/-- C8.  Running-average meter: `update(value, n)` sets the last value to
`value`, adds `value * n` to the cumulative sum, adds `n` to the count, and
sets `avg` to the new `sum / count`; `reset` zeros all four fields; and from
a fresh meter, `update(10, 2)` followed by `update(20, 1)` yields
`sum = 40`, `count = 3`, `avg = 40 / 3`. -/
theorem averageMeter_spec :
    (∀ (m : AverageMeter) (v n : ℚ),
      (m.update v n).val = v ∧
      (m.update v n).sum = m.sum + v * n ∧
      (m.update v n).count = m.count + n ∧
      (m.update v n).avg = (m.sum + v * n) / (m.count + n)) ∧
    (∀ m : AverageMeter,
      m.reset.val = 0 ∧ m.reset.avg = 0 ∧ m.reset.sum = 0 ∧ m.reset.count = 0) ∧
    (((AverageMeter.init.update 10 2).update 20 1).sum = 40 ∧
      ((AverageMeter.init.update 10 2).update 20 1).count = 3 ∧
      ((AverageMeter.init.update 10 2).update 20 1).avg = 40 / 3) := by
  refine ⟨fun m v n => ⟨rfl, rfl, rfl, rfl⟩,
    fun m => ⟨rfl, rfl, rfl, rfl⟩, ?_⟩
  norm_num [AverageMeter.init, AverageMeter.reset, AverageMeter.update]

/-- C10.  The Instrumentation Record forward pass returns its input
unchanged (so inserting trackers never alters the model's outputs), adds the
batch size to `count`, stores the raw input in `x`, accumulates the
over-batch sum into `data`, and accumulates the per-position count of zero
entries of the batch into `zeros`. -/
theorem averageTracker_forward_spec (B C W H : ℕ)
    (t : AverageTracker B C W H) (inp : Fin B → Fin C → Fin W → Fin H → ℚ) :
    (t.forward inp).2 = inp ∧
    (t.forward inp).1.count = t.count + B ∧
    (t.forward inp).1.x = inp ∧
    (∀ (c : Fin C) (w : Fin W) (h : Fin H),
      (t.forward inp).1.data c w h = t.data c w h + ∑ b : Fin B, inp b c w h) ∧
    (∀ (c : Fin C) (w : Fin W) (h : Fin H),
      (t.forward inp).1.zeros c w h
        = t.zeros c w h + (zeroCount inp c w h : ℚ)) := by
  refine ⟨rfl, rfl, rfl, fun c w h => rfl, fun c w h => ?_⟩
  show t.zeros c w h + ∑ b : Fin B, (if inp b c w h = 0 then (1 : ℚ) else 0)
      = t.zeros c w h + (zeroCount inp c w h : ℚ)
  rw [zeroCount, Nat.cast_sum]
  congr 1
  refine Finset.sum_congr rfl (fun b _ => ?_)
  by_cases hb : inp b c w h = 0 <;> simp [hb]

end Meters

section ConflictMatrix

theorem binarize_mul (a b : ℚ) :
    binarize a * binarize b = if a ≠ 0 ∧ b ≠ 0 then 1 else 0 := by
  by_cases ha : a = 0 <;> by_cases hb : b = 0 <;> simp [binarize, ha, hb]

theorem sampleConflict_eq {C W H : ℕ} (s : Activation C W H) (i j : Fin C) :
    (∑ w : Fin W, ∑ h : Fin H, binarize (s i w h) * binarize (s j w h))
      = ((∑ w : Fin W, ∑ h : Fin H,
          if s i w h ≠ 0 ∧ s j w h ≠ 0 then 1 else 0 : ℕ) : ℚ) := by
  push_cast
  refine Finset.sum_congr rfl (fun w _ => Finset.sum_congr rfl (fun h _ => ?_))
  rw [binarize_mul]

theorem batchConflict_eq {C W H : ℕ} (batch : List (Activation C W H))
    (i j : Fin C) :
    batchConflict batch i j
      = (((batch.map (fun s => ∑ w : Fin W, ∑ h : Fin H,
          if s i w h ≠ 0 ∧ s j w h ≠ 0 then 1 else 0)).sum : ℕ) : ℚ) := by
  induction batch with
  | nil => simp [batchConflict]
  | cons s rest ih =>
    rw [batchConflict, List.map_cons, List.sum_cons, ← batchConflict, ih,
      List.map_cons, List.sum_cons, Nat.cast_add, sampleConflict_eq]

theorem accumConflict_eq {C W H : ℕ} (batches : List (List (Activation C W H)))
    (i j : Fin C) :
    accumConflict batches i j = ((coActiveCount batches i j : ℕ) : ℚ) := by
  induction batches with
  | nil => simp [accumConflict, coActiveCount]
  | cons batch rest ih =>
    rw [accumConflict, List.map_cons, List.sum_cons]
    have h1 : (rest.map (fun b => batchConflict b i j)).sum
        = accumConflict rest i j := rfl
    rw [h1, ih, batchConflict_eq, ← Nat.cast_add]
    congr 1

theorem batchConflict_symm {C W H : ℕ} (batch : List (Activation C W H))
    (i j : Fin C) : batchConflict batch i j = batchConflict batch j i := by
  have hfun : (fun s : Activation C W H => ∑ w : Fin W, ∑ h : Fin H,
        binarize (s i w h) * binarize (s j w h))
      = (fun s : Activation C W H => ∑ w : Fin W, ∑ h : Fin H,
        binarize (s j w h) * binarize (s i w h)) :=
    funext fun s => Finset.sum_congr rfl fun w _ =>
      Finset.sum_congr rfl fun h _ => mul_comm _ _
  rw [batchConflict, batchConflict, hfun]

theorem accumConflict_symm {C W H : ℕ} (batches : List (List (Activation C W H)))
    (i j : Fin C) : accumConflict batches i j = accumConflict batches j i := by
  have hfun : (fun b : List (Activation C W H) => batchConflict b i j)
      = (fun b : List (Activation C W H) => batchConflict b j i) :=
    funext fun b => batchConflict_symm b i j
  rw [accumConflict, accumConflict, hfun]

/-- C4.  The Conflict Matrix of the evaluation pass for a 4-D instrumented
layer (square by construction, being indexed by `Fin C` in both coordinates)
is symmetric, non-negative, has a zero diagonal after normalization, and its
off-diagonal entry (i, j) is the count of (sample, spatial-position)
instances in which channels i and j are both nonzero, accumulated over the
whole pass, divided by `num_samples * W * H`. -/
theorem conflictMatrix_spec (C W H : ℕ)
    (batches : List (List (Activation C W H))) :
    (∀ i : Fin C, conflictMatrix batches i i = 0) ∧
    (∀ i j : Fin C,
      conflictMatrix batches i j = conflictMatrix batches j i ∧
      0 ≤ conflictMatrix batches i j ∧
      conflictMatrix batches i j
        = (if i = j then 0 else ((coActiveCount batches i j : ℕ) : ℚ))
            / ((numSamples batches * W * H : ℕ) : ℚ)) := by
  refine ⟨fun i => ?_, fun i j => ⟨?_, ?_, ?_⟩⟩
  · rw [conflictMatrix, if_pos rfl, zero_div]
  · by_cases hij : i = j
    · subst hij; rfl
    · rw [conflictMatrix, conflictMatrix, if_neg hij,
        if_neg (fun hji => hij hji.symm), accumConflict_symm]
  · rw [conflictMatrix]
    refine div_nonneg ?_ (Nat.cast_nonneg _)
    by_cases hij : i = j
    · rw [if_pos hij]
    · rw [if_neg hij, accumConflict_eq]
      exact Nat.cast_nonneg _
  · rw [conflictMatrix]
    by_cases hij : i = j
    · rw [if_pos hij, if_pos hij]
    · rw [if_neg hij, if_neg hij, accumConflict_eq]

end ConflictMatrix

section FirstFit

/-- A successful inner scan of `first_fit` appends the column to exactly one
existing bin: the bin list decomposes around a bin that is below capacity and
whose tentative conflict score with the new column is below the threshold. -/
theorem tryPlace_some_decomp {mat : ℕ → ℕ → ℚ} {maxScore : ℚ} {maxCols : ℕ}
    {column : ℕ} : ∀ {bins bins2 : List (List ℕ)},
    tryPlace mat maxScore maxCols column bins = some bins2 →
    ∃ pre b post, bins = pre ++ b :: post ∧
      bins2 = pre ++ (b ++ [column]) :: post ∧
      b.length ≠ maxCols ∧ get_conflict_score mat (b ++ [column]) < maxScore := by
  intro bins
  induction bins with
  | nil => intro bins2 h; simp [tryPlace] at h
  | cons b bs ih =>
    intro bins2 h
    by_cases hlen : b.length = maxCols
    · simp only [tryPlace, if_pos hlen] at h
      rcases Option.map_eq_some'.mp h with ⟨r, hr, hb2⟩
      rcases ih hr with ⟨pre, b2, post, h1, h2, h3, h4⟩
      exact ⟨b :: pre, b2, post, by rw [h1]; rfl, by rw [← hb2, h2]; rfl, h3, h4⟩
    · by_cases hscore : get_conflict_score mat (b ++ [column]) < maxScore
      · simp only [tryPlace, if_neg hlen, if_pos hscore, Option.some.injEq] at h
        exact ⟨[], b, bs, rfl, by rw [← h]; rfl, hlen, hscore⟩
      · simp only [tryPlace, if_neg hlen, if_neg hscore] at h
        rcases Option.map_eq_some'.mp h with ⟨r, hr, hb2⟩
        rcases ih hr with ⟨pre, b2, post, h1, h2, h3, h4⟩
        exact ⟨b :: pre, b2, post, by rw [h1]; rfl, by rw [← hb2, h2]; rfl, h3, h4⟩

/-- A failed inner scan means every existing bin either is at capacity or
rejects the column on its conflict score. -/
theorem tryPlace_none_reject {mat : ℕ → ℕ → ℚ} {maxScore : ℚ} {maxCols : ℕ}
    {column : ℕ} : ∀ {bins : List (List ℕ)},
    tryPlace mat maxScore maxCols column bins = none →
    ∀ b ∈ bins, b.length = maxCols ∨
      ¬ get_conflict_score mat (b ++ [column]) < maxScore := by
  intro bins
  induction bins with
  | nil => intro _ b hb; cases hb
  | cons b bs ih =>
    intro h b2 hb2
    by_cases hlen : b.length = maxCols
    · simp only [tryPlace, if_pos hlen, Option.map_eq_none'] at h
      rcases List.mem_cons.mp hb2 with rfl | hmem
      · exact Or.inl hlen
      · exact ih h b2 hmem
    · by_cases hscore : get_conflict_score mat (b ++ [column]) < maxScore
      · simp [tryPlace, if_neg hlen, if_pos hscore] at h
      · simp only [tryPlace, if_neg hlen, if_neg hscore, Option.map_eq_none'] at h
        rcases List.mem_cons.mp hb2 with rfl | hmem
        · exact Or.inr hscore
        · exact ih h b2 hmem

theorem first_fit_step_binOk {mat : ℕ → ℕ → ℚ} {maxScore : ℚ} {maxCols : ℕ}
    (hm : 0 < maxCols) {bins : List (List ℕ)} {col : ℕ}
    (hinv : ∀ b ∈ bins, BinOk mat maxScore maxCols b) :
    ∀ b ∈ first_fit_step mat maxScore maxCols bins col,
      BinOk mat maxScore maxCols b := by
  unfold first_fit_step
  cases htry : tryPlace mat maxScore maxCols col bins with
  | none =>
    intro b hb
    rcases List.mem_append.mp hb with h | h
    · exact hinv b h
    · rcases List.mem_singleton.mp h with rfl
      refine ⟨by simpa using hm, fun n h2 hn => ?_⟩
      simp at hn
      omega
  | some bins2 =>
    intro b hb
    rcases tryPlace_some_decomp htry with ⟨pre, b0, post, hbins, hbins2, hlen, hscore⟩
    subst hbins hbins2
    have hb0 : BinOk mat maxScore maxCols b0 :=
      hinv b0 (by simp [List.mem_append])
    rcases List.mem_append.mp hb with h | h
    · exact hinv b (by simp [List.mem_append, h])
    · rcases List.mem_cons.mp h with rfl | h
      · refine ⟨?_, fun n h2 hn => ?_⟩
        · have := hb0.1
          simp only [List.length_append, List.length_singleton]
          omega
        · rcases Nat.lt_or_ge n (b0.length + 1) with hlt | hge
          · have hn0 : n ≤ b0.length := by omega
            rw [List.take_append_of_le_length hn0]
            exact hb0.2 n h2 hn0
          · have hfull : (b0 ++ [col]).length ≤ n := by
              simp only [List.length_append, List.length_singleton]
              omega
            rw [List.take_of_length_le hfull]
            exact hscore
      · exact hinv b (by simp [List.mem_append, List.mem_cons, h])

theorem first_fit_foldl_binOk {mat : ℕ → ℕ → ℚ} {maxScore : ℚ} {maxCols : ℕ}
    (hm : 0 < maxCols) :
    ∀ (l : List ℕ) (bins : List (List ℕ)),
      (∀ b ∈ bins, BinOk mat maxScore maxCols b) →
      ∀ b ∈ l.foldl (first_fit_step mat maxScore maxCols) bins,
        BinOk mat maxScore maxCols b := by
  intro l
  induction l with
  | nil => intro bins h; simpa using h
  | cons a t ih =>
    intro bins h
    rw [List.foldl_cons]
    exact ih _ (first_fit_step_binOk hm h)

/-- C5 counterexample: with `max_columns = 0` (a configuration of the claim's
quantification) the claim fails — processing a 1-channel conflict matrix
opens a singleton bin, which already holds more than `max_columns` channels. -/
theorem first_fit_capacity_counterexample :
    first_fit zeroMat 1 (1 / 100) 0 = [[0]] ∧ ¬ (([0] : List ℕ).length ≤ 0) := by
  constructor
  · rfl
  · decide

/-- C5 amended.  For every conflict matrix, every `max_conflict_score`, and
every `max_columns ≥ 1` (the source default is 8): every bin of the returned
packing contains at most `max_columns` channels, and at each moment a channel
was accepted into an existing bin (every prefix of the bin of length at least
2) the pairwise conflict score of the bin including the new channel was
strictly below `max_conflict_score`; moreover a column rejected by every
existing bin opens a new singleton bin at the end of the bin list. -/
theorem first_fit_capacity_and_score (mat : ℕ → ℕ → ℚ) (numColumns : ℕ)
    (maxScore : ℚ) (maxCols : ℕ) (hm : 0 < maxCols) :
    (∀ b ∈ first_fit mat numColumns maxScore maxCols,
      b.length ≤ maxCols ∧
        ∀ n, 2 ≤ n → n ≤ b.length →
          get_conflict_score mat (b.take n) < maxScore) ∧
    (∀ (bins : List (List ℕ)) (col : ℕ),
      (∀ b ∈ bins, b.length = maxCols ∨
        ¬ get_conflict_score mat (b ++ [col]) < maxScore) →
      first_fit_step mat maxScore maxCols bins col = bins ++ [[col]]) := by
  constructor
  · intro b hb
    exact first_fit_foldl_binOk hm (List.range numColumns) [] (by simp) b hb
  · intro bins col hrej
    unfold first_fit_step
    cases htry : tryPlace mat maxScore maxCols col bins with
    | none => rfl
    | some bins2 =>
      rcases tryPlace_some_decomp htry with ⟨pre, b0, post, hbins, _, hlen, hscore⟩
      have hb0 : b0 ∈ bins := by rw [hbins]; simp [List.mem_append]
      rcases hrej b0 hb0 with h | h
      · exact absurd h hlen
      · exact absurd hscore h

/-- Witness for the amended C5 at the source defaults
(`max_conflict_score = 0.01`, `max_columns = 8`) on a 1-channel zero conflict
matrix, whose packing is the single bin [0]. -/
theorem first_fit_capacity_and_score_witness :
    ([0] : List ℕ).length ≤ 8 :=
  ((first_fit_capacity_and_score zeroMat 1 (1 / 100) 8 (by decide)).1
    [0] (by rw [show first_fit zeroMat 1 (1 / 100) 8 = [[0]] from rfl]; exact List.mem_singleton.mpr rfl)).1

theorem first_fit_succ (mat : ℕ → ℕ → ℚ) (n : ℕ) (maxScore : ℚ) (maxCols : ℕ) :
    first_fit mat (n + 1) maxScore maxCols
      = first_fit_step mat maxScore maxCols (first_fit mat n maxScore maxCols) n := by
  unfold first_fit
  rw [List.range_succ, List.foldl_append, List.foldl_cons, List.foldl_nil]

theorem count_singleton_eq (i n : ℕ) :
    ([n] : List ℕ).count i = if i = n then 1 else 0 := by
  by_cases h : i = n <;> simp [h]

/-- Each step of first-fit adds the new column to the multiset of packed
columns exactly once, whether it lands in an existing bin or a new one. -/
theorem first_fit_step_count (mat : ℕ → ℕ → ℚ) (maxScore : ℚ) (maxCols : ℕ)
    (bins : List (List ℕ)) (col i : ℕ) :
    ((first_fit_step mat maxScore maxCols bins col).map (fun b => b.count i)).sum
      = (bins.map (fun b => b.count i)).sum + ([col] : List ℕ).count i := by
  unfold first_fit_step
  cases htry : tryPlace mat maxScore maxCols col bins with
  | none =>
    rw [List.map_append, List.sum_append]
    simp
  | some bins2 =>
    rcases tryPlace_some_decomp htry with ⟨pre, b0, post, hb1, hb2, _, _⟩
    subst hb1 hb2
    simp only [List.map_append, List.sum_append, List.map_cons, List.sum_cons,
      List.count_append]
    have hc : ([col] : List ℕ).count i = (if i = col then 1 else 0) :=
      count_singleton_eq i col
    rw [hc]
    ring

theorem first_fit_step_partition {mat : ℕ → ℕ → ℚ} {maxScore : ℚ}
    {maxCols : ℕ} {bins : List (List ℕ)} {n : ℕ} (h : PartitionInv n bins) :
    PartitionInv (n + 1) (first_fit_step mat maxScore maxCols bins n) := by
  obtain ⟨hbins, hcount⟩ := h
  constructor
  · unfold first_fit_step
    cases htry : tryPlace mat maxScore maxCols n bins with
    | none =>
      intro b hb
      rcases List.mem_append.mp hb with hmem | hmem
      · obtain ⟨h1, h2, h3⟩ := hbins b hmem
        exact ⟨h1, h2, fun x hx => Nat.lt_succ_of_lt (h3 x hx)⟩
      · rcases List.mem_singleton.mp hmem with rfl
        exact ⟨by simp, List.sorted_singleton n, by simp⟩
    | some bins2 =>
      intro b hb
      rcases tryPlace_some_decomp htry with ⟨pre, b0, post, hb1, hb2, _, _⟩
      subst hb1 hb2
      have hb0 := hbins b0 (by simp [List.mem_append])
      rcases List.mem_append.mp hb with hmem | hmem
      · obtain ⟨h1, h2, h3⟩ := hbins b (by simp [List.mem_append, hmem])
        exact ⟨h1, h2, fun x hx => Nat.lt_succ_of_lt (h3 x hx)⟩
      · rcases List.mem_cons.mp hmem with rfl | hmem
        · refine ⟨by simp, ?_, ?_⟩
          · refine List.pairwise_append.mpr
              ⟨hb0.2.1, List.sorted_singleton n, fun a ha b2 hbb => ?_⟩
            rw [List.mem_singleton.mp hbb]
            exact hb0.2.2 a ha
          · intro x hx
            rcases List.mem_append.mp hx with hmx | hmx
            · exact Nat.lt_succ_of_lt (hb0.2.2 x hmx)
            · rw [List.mem_singleton.mp hmx]
              omega
        · obtain ⟨h1, h2, h3⟩ :=
            hbins b (by simp [List.mem_append, List.mem_cons, hmem])
          exact ⟨h1, h2, fun x hx => Nat.lt_succ_of_lt (h3 x hx)⟩
  · intro i
    rw [first_fit_step_count, hcount i, count_singleton_eq]
    split_ifs <;> omega

theorem first_fit_partitionInv (mat : ℕ → ℕ → ℚ) (maxScore : ℚ)
    (maxCols : ℕ) : ∀ n, PartitionInv n (first_fit mat n maxScore maxCols) := by
  intro n
  induction n with
  | zero =>
    constructor
    · intro b hb
      simp [first_fit] at hb
    · intro i
      simp [first_fit]
  | succ n ih =>
    rw [first_fit_succ]
    exact first_fit_step_partition ih

/-- C9.  The packing returned by `first_fit` partitions the processed channel
indices: no bin is empty, every bin is strictly ascending (channels are
processed and appended in ascending index order), every channel index below
`numColumns` occurs exactly once across all bins, and no other index occurs. -/
theorem first_fit_partition (mat : ℕ → ℕ → ℚ) (numColumns : ℕ)
    (maxScore : ℚ) (maxCols : ℕ) :
    (∀ b ∈ first_fit mat numColumns maxScore maxCols,
      b ≠ [] ∧ List.Sorted (· < ·) b) ∧
    (∀ i, ((first_fit mat numColumns maxScore maxCols).map
        (fun b => b.count i)).sum = if i < numColumns then 1 else 0) := by
  obtain ⟨h1, h2⟩ := first_fit_partitionInv mat maxScore maxCols numColumns
  exact ⟨fun b hb => ⟨(h1 b hb).1, (h1 b hb).2.1⟩, h2⟩

/-- Witness for C9 on a 1-channel zero conflict matrix, whose packing is the
single bin [0]. -/
theorem first_fit_partition_witness :
    ([0] : List ℕ) ≠ [] ∧ List.Sorted (· < ·) ([0] : List ℕ) :=
  (first_fit_partition zeroMat 1 (1 / 100) 8).1 [0]
    (by rw [show first_fit zeroMat 1 (1 / 100) 8 = [[0]] from rfl]; exact List.mem_singleton.mpr rfl)

end FirstFit

section TermCount

theorem sum_map_const {A : Type} (l : List A) (k : ℕ) :
    (l.map (fun _ => k)).sum = l.length * k := by
  induction l with
  | nil => simp
  | cons a t ih =>
    rw [List.map_cons, List.sum_cons, ih, List.length_cons]
    ring

theorem listConcat_length (ls : List (List ℕ)) :
    (listConcat ls).length = (ls.map List.length).sum := by
  induction ls with
  | nil => rfl
  | cons a t ih =>
    rw [show listConcat (a :: t) = a ++ listConcat t from rfl,
      List.length_append, ih, List.map_cons, List.sum_cons]

theorem le_foldr_max_nat {l : List ℕ} {x : ℕ} (hx : x ∈ l) :
    x ≤ l.foldr max 0 := by
  induction l with
  | nil => cases hx
  | cons a t ih =>
    rcases List.mem_cons.mp hx with rfl | h
    · exact le_max_left x (t.foldr max 0)
    · exact le_trans (ih h) (le_max_right a (t.foldr max 0))

theorem sum_map_add {A : Type} (l : List A) (f f2 : A → ℕ) :
    (l.map (fun v => f v + f2 v)).sum = (l.map f).sum + (l.map f2).sum := by
  induction l with
  | nil => rfl
  | cons a t ih =>
    rw [List.map_cons, List.sum_cons, List.map_cons, List.sum_cons,
      List.map_cons, List.sum_cons, ih]
    ring

theorem range_indicator_sum (n a : ℕ) :
    ((List.range n).map (fun v => if v = a then (1 : ℕ) else 0)).sum
      = if a < n then 1 else 0 := by
  induction n with
  | zero => simp
  | succ n ih =>
    rw [List.range_succ, List.map_append, List.sum_append, ih]
    simp only [List.map_cons, List.map_nil, List.sum_cons, List.sum_nil]
    split_ifs <;> omega

theorem range_count_sum : ∀ {l : List ℕ} {n : ℕ}, (∀ x ∈ l, x < n) →
    ((List.range n).map (fun v => l.count v)).sum = l.length := by
  intro l
  induction l with
  | nil => intro n _; simp
  | cons a t ih =>
    intro n h
    have ha : a < n := h a (List.mem_cons_self a t)
    have ht : ∀ x ∈ t, x < n := fun x hx => h x (List.mem_cons_of_mem a hx)
    have hcnt : ∀ v ∈ List.range n,
        (a :: t).count v = t.count v + (if v = a then 1 else 0) := by
      intro v _
      by_cases hv : v = a <;> simp [List.count_cons, hv]
    rw [List.map_congr_left hcnt, sum_map_add, ih ht, range_indicator_sum,
      if_pos ha, List.length_cons]

/-- The histogram returned by `np.bincount` redistributes but does not lose
entries: its counts sum to the length of the input list. -/
theorem bincount_sum (l : List ℕ) : (bincount l).sum = l.length := by
  cases l with
  | nil => rfl
  | cons a t =>
    show ((List.range ((a :: t).foldr max 0 + 1)).map
      (fun v => (a :: t).count v)).sum = (a :: t).length
    apply range_count_sum
    intro x hx
    have := le_foldr_max_nat hx
    omega

theorem all_res_length (B C W H F g : ℕ) (x_terms w_terms : ℕ → ℕ → ℕ) :
    (all_res B C W H F g x_terms w_terms).length = C / g * (B * W * H * F) := by
  rw [all_res, listConcat_length, List.map_map]
  have hinner : ∀ i ∈ List.range (C / g),
      (List.length ∘ fun i => listConcat ((List.range (B * W * H)).map (fun r =>
        (List.range F).map (fun f =>
          ((List.range g).map (fun j =>
            x_terms r (i * g + j) * w_terms f (i * g + j))).sum)))) i
        = B * W * H * F := by
    intro i _
    show (listConcat ((List.range (B * W * H)).map (fun r =>
      (List.range F).map (fun f =>
        ((List.range g).map (fun j =>
          x_terms r (i * g + j) * w_terms f (i * g + j))).sum)))).length
      = B * W * H * F
    rw [listConcat_length, List.map_map]
    have hrow : ∀ r ∈ List.range (B * W * H),
        (List.length ∘ fun r => (List.range F).map (fun f =>
          ((List.range g).map (fun j =>
            x_terms r (i * g + j) * w_terms f (i * g + j))).sum)) r = F := by
      intro r _
      show ((List.range F).map (fun f =>
        ((List.range g).map (fun j =>
          x_terms r (i * g + j) * w_terms f (i * g + j))).sum)).length = F
      rw [List.length_map, List.length_range]
    rw [List.map_congr_left hrow, sum_map_const, List.length_range]
  rw [List.map_congr_left hinner, sum_map_const, List.length_range]

/-- C6.  Term-pair histogram total: for a layer with activation shape
(B, C, W, H), `F` output filters, and a group size dividing `C`, the counts
of the histogram produced by `get_term_count` sum to
`B * W * H * F * (C / g)` — the number of spatial positions times the number
of output filters times the number of channel groups — for any term-counting
functions, i.e. for any quantization configuration (binary or HESE). -/
theorem get_term_count_total (B C W H F g : ℕ) (x_terms w_terms : ℕ → ℕ → ℕ)
    (hgC : g ∣ C) :
    (get_term_count B C W H F g x_terms w_terms).sum
      = B * W * H * F * (C / g) := by
  rw [get_term_count, bincount_sum, all_res_length]
  ring

/-- Witness for C6 with B = W = H = F = 1, C = 2, g = 2, and constant term
counts 1: the single group contributes one histogram entry. -/
theorem get_term_count_total_witness :
    (get_term_count 1 2 1 1 1 2 (fun _ _ => 1) (fun _ _ => 1)).sum
      = 1 * 1 * 1 * 1 * (2 / 2) :=
  get_term_count_total 1 2 1 1 1 2 (fun _ _ => 1) (fun _ _ => 1) ⟨1, rfl⟩

end TermCount

section CheckpointKeys

/-- A string without any occurrence of the pattern passes through
`str.replace(pat, "")` unchanged, for any amount of fuel. -/
theorem replaceAux_no_occ (pat : List Char) :
    ∀ (s : List Char) (fuel : ℕ), hasSubstr pat s = false →
      replaceAux pat fuel s = s := by
  intro s
  induction s with
  | nil => intro fuel _; cases fuel <;> rfl
  | cons c t ih =>
    intro fuel h
    rw [hasSubstr, Bool.or_eq_false_iff] at h
    cases fuel with
    | zero => rfl
    | succ n =>
      rw [replaceAux, if_neg, ih n h.2]
      intro hcond
      rw [decide_eq_false_iff_not] at h
      exact absurd hcond.2 h.1

theorem hasSubstr_self_append (pat rest : List Char) (hpat : pat ≠ []) :
    hasSubstr pat (pat ++ rest) = true := by
  cases pat with
  | nil => exact absurd rfl hpat
  | cons c p =>
    rw [List.cons_append, hasSubstr, Bool.or_eq_true_iff]
    left
    rw [decide_eq_true_iff]
    show ((c :: p) ++ rest).take (c :: p).length = c :: p
    exact List.take_left (c :: p) rest

/-- Stripping behaviour of `str.replace` on a key of the canonical
`module.`-prefixed form: the leading occurrence is removed and, when the rest
holds no further occurrence, the rest is returned verbatim. -/
theorem pyReplace_self_append (pat rest : List Char) (hpat : pat ≠ [])
    (hrest : hasSubstr pat rest = false) :
    pyReplace pat (pat ++ rest) = rest := by
  cases pat with
  | nil => exact absurd rfl hpat
  | cons c p =>
    show replaceAux (c :: p) ((c :: p) ++ rest).length ((c :: p) ++ rest) = rest
    rw [List.cons_append, List.length_cons, replaceAux, if_pos]
    · have hdrop : (p ++ rest).drop ((c :: p).length - 1) = rest := by
        rw [List.length_cons, Nat.add_sub_cancel]
        exact List.drop_left p rest
      rw [hdrop]
      exact replaceAux_no_occ (c :: p) rest (p ++ rest).length hrest
    · refine ⟨by simp, ?_⟩
      show ((c :: p) ++ rest).take (c :: p).length = c :: p
      exact List.take_left (c :: p) rest

theorem joinWith_cons_cons (pat a b : List Char) (r : List (List Char)) :
    joinWith pat (a :: b :: r) = a ++ pat ++ joinWith pat (b :: r) := rfl

theorem joinWith_head_cons (pat : List Char) (c : Char) (a : List Char)
    (r : List (List Char)) :
    joinWith pat ((c :: a) :: r) = c :: joinWith pat (a :: r) := by
  cases r with
  | nil => rfl
  | cons b r2 => rfl

/-- The left-to-right scan of `str.replace(pat, "")` decomposes its input
into the segments lying between the (leftmost, non-overlapping) occurrences
of the pattern it removes, and returns those segments concatenated; an input
containing the pattern is cut into at least two segments, i.e. at least one
occurrence is removed.  The fuel only needs to dominate the input length. -/
theorem replaceAux_decomp (pat : List Char) (hpat : pat ≠ []) :
    ∀ (fuel : ℕ) (s : List Char), s.length ≤ fuel →
      ∃ segs : List (List Char), segs ≠ [] ∧
        s = joinWith pat segs ∧
        replaceAux pat fuel s = concatSegs segs ∧
        (hasSubstr pat s = true → 2 ≤ segs.length) := by
  intro fuel
  induction fuel with
  | zero =>
    intro s hs
    have hnil : s = [] := List.length_eq_zero.mp (Nat.le_zero.mp hs)
    subst hnil
    refine ⟨[[]], by simp, rfl, rfl, fun hcon => ?_⟩
    rw [hasSubstr] at hcon
    exact absurd (of_decide_eq_true hcon) hpat
  | succ n ih =>
    intro s hs
    cases s with
    | nil =>
      refine ⟨[[]], by simp, rfl, rfl, fun hcon => ?_⟩
      rw [hasSubstr] at hcon
      exact absurd (of_decide_eq_true hcon) hpat
    | cons c t =>
      have ht : t.length ≤ n := by
        rw [List.length_cons] at hs
        omega
      by_cases hstart : (c :: t).take pat.length = pat
      · have hlen : (t.drop (pat.length - 1)).length ≤ n := by
          rw [List.length_drop]
          omega
        obtain ⟨segs, hne, hjoin, hrepl, _⟩ := ih (t.drop (pat.length - 1)) hlen
        obtain ⟨b, r, rfl⟩ := List.exists_cons_of_ne_nil hne
        refine ⟨[] :: b :: r, by simp, ?_, ?_, fun _ => ?_⟩
        · rw [joinWith_cons_cons, List.nil_append, ← hjoin]
          conv_lhs => rw [← List.take_append_drop pat.length (c :: t)]
          rw [hstart]
          congr 1
          cases pat with
          | nil => exact absurd rfl hpat
          | cons p ps => simp
        · rw [replaceAux, if_pos ⟨List.length_pos.mpr hpat, hstart⟩]
          exact hrepl
        · simp [List.length_cons]
      · obtain ⟨segs, hne, hjoin, hrepl, hcon⟩ := ih t ht
        obtain ⟨a, r, rfl⟩ := List.exists_cons_of_ne_nil hne
        refine ⟨(c :: a) :: r, by simp, ?_, ?_, fun hsub => ?_⟩
        · rw [joinWith_head_cons, ← hjoin]
        · rw [replaceAux, if_neg (fun hcond => hstart hcond.2)]
          rw [hrepl]
          rfl
        · rw [hasSubstr, Bool.or_eq_true_iff] at hsub
          rcases hsub with h | h
          · exact absurd (of_decide_eq_true h) hstart
          · have h2 := hcon h
            rw [List.length_cons] at h2 ⊢
            omega

/-- Instantiation of the scan decomposition for `key.replace('module.', '')`
at the fuel used by `pyReplace`. -/
theorem pyReplace_decomp (s : List Char) :
    ∃ segs : List (List Char), segs ≠ [] ∧
      s = joinWith modulePat segs ∧
      pyReplace modulePat s = concatSegs segs ∧
      (hasSubstr modulePat s = true → 2 ≤ segs.length) :=
  replaceAux_decomp modulePat (by decide) s.length s (le_refl s.length)

/-- C7.  Checkpoint key normalization: the key `module.conv1.weight` is
normalized to `conv1.weight`, and a key with a mid-key and a repeated
occurrence, `module.features.module.0.weight`, is normalized to
`features.0.weight`; a key not containing the substring `module.` is used
unchanged; a key of the form `module.` ++ rest with no further occurrence is
normalized to exactly the rest; and in full generality every key decomposes
into segments separated by the occurrences of `module.` that
`key.replace('module.', '')` removes — the key used for loading is exactly
those segments concatenated, i.e. the key with the substring stripped
(anywhere it occurs, however often), and any key containing the substring
has at least one occurrence stripped (at least two segments). -/
theorem checkpoint_key_normalization :
    normalizeKey "module.conv1.weight".toList = "conv1.weight".toList ∧
    normalizeKey "module.features.module.0.weight".toList
      = "features.0.weight".toList ∧
    (∀ s : List Char, hasSubstr modulePat s = false → normalizeKey s = s) ∧
    (∀ rest : List Char, hasSubstr modulePat rest = false →
      normalizeKey (modulePat ++ rest) = rest) ∧
    (∀ s : List Char, ∃ segs : List (List Char), segs ≠ [] ∧
      s = joinWith modulePat segs ∧
      normalizeKey s = concatSegs segs ∧
      (hasSubstr modulePat s = true → 2 ≤ segs.length)) := by
  refine ⟨by decide, by decide, fun s h => ?_, fun rest h => ?_, fun s => ?_⟩
  · rw [normalizeKey, if_neg]
    rw [h]
    exact Bool.false_ne_true
  · rw [normalizeKey, if_pos]
    · exact pyReplace_self_append modulePat rest (by decide) h
    · rw [hasSubstr_self_append modulePat rest (by decide)]
  · obtain ⟨segs, hne, hjoin, hrepl, hcon⟩ := pyReplace_decomp s
    refine ⟨segs, hne, hjoin, ?_, hcon⟩
    rw [normalizeKey]
    by_cases h : hasSubstr modulePat s = true
    · rw [if_pos h]
      exact hrepl
    · rw [if_neg h]
      rw [← hrepl]
      have hfalse : hasSubstr modulePat s = false := by
        rwa [Bool.not_eq_true] at h
      exact (replaceAux_no_occ modulePat s s.length hfalse).symm

/-- Witness for C7 on the rest string `conv1.weight`. -/
theorem checkpoint_key_normalization_witness :
    normalizeKey (modulePat ++ "conv1.weight".toList) = "conv1.weight".toList :=
  checkpoint_key_normalization.2.2.2.1 "conv1.weight".toList (by decide)

end CheckpointKeys

end TermRevealing
